import Mathlib

/-!
# Verification of `drivers/staging/zram/zram_comp.c`

Shallow embedding of the zram compression-backend module: the blocking
workmem pool (`wm_policy_workmem_get` / `wm_policy_workmem_put` /
`wm_policy_init` / `wm_policy_free`), the allocation bookkeeping of
`workmem_alloc` / `workmem_free`, and the backend registry
(`zcomp_create` / `zcomp_destroy` / `zcomp_available_show`).

The intrusive `list_head` idle list is embedded as a Lean `List` whose head
is `idle_workmem.next` (the element `list_entry(policy->idle_workmem.next, ...)`
fetches) and whose last element is the tail that `list_add_tail` appends to.
Workmem units are identified by natural numbers.  Code that runs under
`policy->buffer_lock` is embedded as a single atomic transition of a labelled
transition system, the standard interleaving model for lock-protected
critical sections.
-/

/-- Identifier of one `struct zcomp_workmem` unit. -/
abbrev WmId := Nat

/-- Identifier of a thread calling into the pool. -/
abbrev CallerId := Nat

/-- Outcome of one pass over the body of `wm_policy_workmem_get`
(lines 86-106 of `zram_comp.c`).  The body either returns the unit taken
from the front of the idle list (`acquired`), or — when the idle list is
empty — unlocks, sleeps on the wait queue and jumps back to `retry`
(`sleepRetry`).  `nullReturn` is the `return NULL` at line 106, kept as an
explicit outcome so that its unreachability is a theorem and not an
artifact of the model. -/
inductive GetIterResult where
  | acquired (wm : WmId) (idleAfter : List WmId)
  | sleepRetry
  | nullReturn
  deriving DecidableEq

/-- One pass of `wm_policy_workmem_get`'s locked body: if
`!list_empty(&policy->idle_workmem)` it takes `list_entry(idle.next)`
(the head) out of the list via `list_del` and returns it; otherwise it
prepares to wait, sleeps and retries. -/
def getIteration (idle : List WmId) : GetIterResult :=
  match idle with
  | wm :: rest => GetIterResult.acquired wm rest
  | [] => GetIterResult.sleepRetry

/-- The `retry` loop of `wm_policy_workmem_get`, run against the sequence of
idle-list contents the caller observes on successive passes (the lists
between passes change because concurrent `wm_policy_workmem_put` calls add
units and wake the sleeper).  `some (wm, rest)` means the call returned
unit `wm`, leaving `rest` idle; `none` means the schedule ended with the
caller still suspended — the call has not returned at all (in particular it
has not returned NULL). -/
def wmGet : List (List WmId) → Option (WmId × List WmId)
  | [] => none
  | idle :: future =>
    match getIteration idle with
    | GetIterResult.acquired wm rest => some (wm, rest)
    | GetIterResult.sleepRetry => wmGet future
    | GetIterResult.nullReturn => none

/-- Result of one `wm_policy_workmem_put` call: the idle list after
`list_add_tail`, the wait queue after the wakeup, and which waiter (if
any) was woken. -/
structure PutResult where
  idle : List WmId
  waiting : List CallerId
  woken : Option CallerId
  deriving DecidableEq

/-- `wm_policy_workmem_put` (lines 110-119): under the lock,
`list_add_tail(&workmem->list, &policy->idle_workmem)` appends the unit at
the tail of the idle list; then `if (waitqueue_active(...)) wake_up(...)`.

Modelled from the spec: `waitqueue_active`/`wake_up` are kernel wait-queue
primitives whose source is not part of this tree; the spec states that a
release "wakes exactly one of them (others remain suspended until further
releases)" — all sleepers enqueued themselves with
`prepare_to_wait_exclusive`, so `wake_up` wakes the first exclusive waiter
only.  The wait queue is embedded as the list of suspended callers in
arrival order. -/
def wm_policy_workmem_put (idle : List WmId) (waiting : List CallerId)
    (wm : WmId) : PutResult :=
  let idleAfter := idle ++ [wm]
  match waiting with
  | [] => ⟨idleAfter, [], none⟩
  | w :: ws => ⟨idleAfter, ws, some w⟩

/-- `list_add_tail` on the idle list, as used by `wm_policy_workmem_put`
(line 114) and `wm_policy_init` (line 135). -/
def putToIdle (idle : List WmId) (wm : WmId) : List WmId := idle ++ [wm]

/-- The non-blocking face of `wm_policy_workmem_get`: take
`list_entry(policy->idle_workmem.next, ...)` (the head) and `list_del` it;
`none` when the list is empty (the blocking path). -/
def getFromIdle (idle : List WmId) : Option (WmId × List WmId) :=
  match idle with
  | [] => none
  | wm :: rest => some (wm, rest)

/-- Repeatedly perform `getFromIdle` (at most `fuel` times) and record the
units in the order the gets return them. -/
def drainIdle : Nat → List WmId → List WmId
  | 0, _ => []
  | fuel + 1, idle =>
    match getFromIdle idle with
    | none => []
    | some (wm, rest) => wm :: drainIdle fuel rest

/-- Global state of one `zcomp_wm_policy` pool together with the ghost
record of which caller holds which checked-out unit: `idle` is the
`idle_workmem` list, `held` the checked-out units paired with their unique
holders, `waiting` the wait queue. -/
structure PoolState where
  idle : List WmId
  held : List (CallerId × WmId)
  waiting : List CallerId
  deriving DecidableEq

/-- Pool right after a successful `wm_policy_init` generalised to `K`
initial units (the C code establishes `K = 1`): units `0..K-1` idle,
nothing checked out, nobody waiting. -/
def initPool (K : Nat) : PoolState :=
  ⟨List.range K, [], []⟩

/-- Interleaving semantics of the pool.  Each constructor is one critical
section of `zram_comp.c` executed atomically under `policy->buffer_lock`:

* `acquire`: the successful branch of `wm_policy_workmem_get` — the idle
  list is non-empty, the caller removes its head and now holds it (and is
  off the wait queue, as `finish_wait` removes it before the retry that
  succeeds);
* `wait`: the empty branch — the caller finds the idle list empty and
  suspends on the wait queue;
* `put`: `wm_policy_workmem_put` by a caller on a unit it holds — the unit
  goes to the tail of the idle list and one exclusive waiter (the head of
  the queue, if any) is woken. -/
inductive PoolStep : PoolState → PoolState → Prop where
  | acquire (s : PoolState) (c : CallerId) (wm : WmId) (rest : List WmId) :
      s.idle = wm :: rest →
      PoolStep s ⟨rest, (c, wm) :: s.held, s.waiting.erase c⟩
  | wait (s : PoolState) (c : CallerId) :
      s.idle = [] → c ∉ s.waiting →
      PoolStep s ⟨s.idle, s.held, s.waiting ++ [c]⟩
  | put (s : PoolState) (c : CallerId) (wm : WmId)
      (l₁ l₂ : List (CallerId × WmId)) :
      s.held = l₁ ++ (c, wm) :: l₂ →
      PoolStep s ⟨s.idle ++ [wm], l₁ ++ l₂, s.waiting.tail⟩

/-- States reachable from a freshly initialised pool of `K` units by any
interleaving of get/put critical sections. -/
def Reachable (K : Nat) (s : PoolState) : Prop :=
  Relation.ReflTransGen PoolStep (initPool K) s

/-- All units the pool owns: idle ones plus checked-out ones. -/
def PoolState.units (s : PoolState) : List WmId :=
  s.idle ++ s.held.map Prod.snd

/-- Pool invariant: the units, idle and checked out together, are exactly
the `K` units created at init, each occurring exactly once. -/
def PoolInv (K : Nat) (s : PoolState) : Prop :=
  s.units.Perm (List.range K)

lemma poolInv_step {K : Nat} {s s' : PoolState} (hs : PoolInv K s)
    (h : PoolStep s s') : PoolInv K s' := by
  cases h with
  | acquire c wm rest hidle =>
    refine List.Perm.trans ?_ hs
    show List.Perm (rest ++ ((c, wm) :: s.held).map Prod.snd) s.units
    rw [PoolState.units, hidle, List.map_cons, List.cons_append]
    exact List.perm_middle
  | wait c h1 h2 =>
    exact hs
  | put c wm l₁ l₂ hheld =>
    refine List.Perm.trans ?_ hs
    show List.Perm ((s.idle ++ [wm]) ++ (l₁ ++ l₂).map Prod.snd) s.units
    rw [PoolState.units, hheld]
    simp only [List.map_append, List.map_cons]
    rw [List.append_assoc, List.singleton_append]
    exact (List.Perm.append_left s.idle List.perm_middle).symm

lemma reachable_poolInv {K : Nat} {s : PoolState} (h : Reachable K s) :
    PoolInv K s := by
  induction h with
  | refl => simp [PoolInv, initPool, PoolState.units]
  | tail _ hstep ih => exact poolInv_step ih hstep

/-- The concrete state in which caller `0` has checked the single unit `0`
out of a freshly initialised one-unit pool; reachable in one `acquire`
step. -/
lemma reachable_example : Reachable 1 (PoolState.mk [] [(0, 0)] []) := by
  refine Relation.ReflTransGen.single ?_
  have h : PoolStep (initPool 1)
      ⟨[], (0, 0) :: (initPool 1).held, (initPool 1).waiting.erase 0⟩ :=
    PoolStep.acquire (initPool 1) 0 0 [] (by decide)
  simpa [initPool] using h

/-- **C1.** For every sequence of interleaved `wm_policy_workmem_get` /
`wm_policy_workmem_put` critical sections over a pool of `K ≥ 1` units, in
every reachable state: a unit checked out is held by exactly one caller, no
unit is simultaneously idle and checked out, and the units accounted for
(idle or checked out) are exactly the pool's `K` units — never lost, never
duplicated, never shared. -/
theorem workmem_mutual_exclusion (K : Nat) (_hK : 1 ≤ K) (s : PoolState)
    (h : Reachable K s) :
    (∀ c₁ c₂ wm, (c₁, wm) ∈ s.held → (c₂, wm) ∈ s.held → c₁ = c₂) ∧
    (∀ wm, wm ∈ s.idle → ∀ c, (c, wm) ∉ s.held) ∧
    (∀ wm, wm < K ↔ (wm ∈ s.idle ∨ ∃ c, (c, wm) ∈ s.held)) := by
  have hperm : s.units.Perm (List.range K) := reachable_poolInv h
  have hnodup : s.units.Nodup := hperm.symm.nodup (List.nodup_range K)
  have hnodup2 : (s.held.map Prod.snd).Nodup :=
    (List.nodup_append.mp hnodup).2.1
  refine ⟨?_, ?_, ?_⟩
  · intro c₁ c₂ wm h₁ h₂
    have := List.inj_on_of_nodup_map hnodup2 h₁ h₂ rfl
    exact congrArg Prod.fst this
  · intro wm hidle c hheld
    have hdisj := List.disjoint_of_nodup_append hnodup
    exact hdisj hidle (List.mem_map.mpr ⟨(c, wm), hheld, rfl⟩)
  · intro wm
    have hmem : wm ∈ s.units ↔ wm < K := by
      rw [hperm.mem_iff, List.mem_range]
    rw [← hmem]
    simp [PoolState.units, List.mem_append, List.mem_map, Prod.exists]

theorem workmem_mutual_exclusion_witness :
    1 ≤ 1 ∧
    ((∀ c₁ c₂ wm, (c₁, wm) ∈ (PoolState.mk [] [(0, 0)] []).held →
        (c₂, wm) ∈ (PoolState.mk [] [(0, 0)] []).held → c₁ = c₂) ∧
     (∀ wm, wm ∈ (PoolState.mk [] [(0, 0)] []).idle →
        ∀ c, (c, wm) ∉ (PoolState.mk [] [(0, 0)] []).held) ∧
     (∀ wm, wm < 1 ↔ (wm ∈ (PoolState.mk [] [(0, 0)] []).idle ∨
        ∃ c, (c, wm) ∈ (PoolState.mk [] [(0, 0)] []).held))) :=
  ⟨le_refl 1,
   workmem_mutual_exclusion 1 (le_refl 1) (PoolState.mk [] [(0, 0)] [])
     reachable_example⟩

/-- **C9.** In every state reachable from a successful init of a `K ≥ 1`
unit pool, the pool still owns exactly `K` units (idle plus checked out):
get and put move units but never destroy one, so the count never drops to
zero. -/
theorem pool_count_invariant (K : Nat) (hK : 1 ≤ K) (s : PoolState)
    (h : Reachable K s) :
    s.idle.length + s.held.length = K ∧ 0 < s.idle.length + s.held.length := by
  have hlen := (reachable_poolInv h).length_eq
  simp only [PoolState.units, List.length_append, List.length_map,
    List.length_range] at hlen
  exact ⟨hlen, by omega⟩

theorem pool_count_invariant_witness :
    (PoolState.mk [] [(0, 0)] []).idle.length +
      (PoolState.mk [] [(0, 0)] []).held.length = 1 ∧
    0 < (PoolState.mk [] [(0, 0)] []).idle.length +
      (PoolState.mk [] [(0, 0)] []).held.length :=
  pool_count_invariant 1 (le_refl 1) (PoolState.mk [] [(0, 0)] [])
    reachable_example

lemma wmGet_mem {sched : List (List WmId)} {wm : WmId} {rest : List WmId}
    (h : wmGet sched = some (wm, rest)) : wm :: rest ∈ sched := by
  induction sched with
  | nil => simp [wmGet] at h
  | cons idle future ih =>
    cases idle with
    | nil =>
      simp only [wmGet, getIteration] at h
      exact List.mem_cons_of_mem _ (ih h)
    | cons a as =>
      simp only [wmGet, getIteration, Option.some.injEq, Prod.mk.injEq] at h
      rcases h with ⟨rfl, rfl⟩
      exact List.mem_cons_self _ _

lemma wmGet_of_exists_nonempty {sched : List (List WmId)}
    (h : ∃ idle, idle ∈ sched ∧ idle ≠ []) :
    ∃ wm rest, wmGet sched = some (wm, rest) := by
  induction sched with
  | nil =>
    rcases h with ⟨idle, hmem, _⟩
    simp at hmem
  | cons l future ih =>
    cases l with
    | cons a as => exact ⟨a, as, by simp [wmGet, getIteration]⟩
    | nil =>
      rcases h with ⟨idle, hmem, hne⟩
      rcases List.mem_cons.mp hmem with h1 | h2
      · exact absurd h1 hne
      · simpa [wmGet, getIteration] using ih ⟨idle, h2, hne⟩

/-- **C2.** `wm_policy_workmem_get` never returns NULL: the final
`return NULL` outcome is unreachable from the body (every pass either
acquires or sleeps and retries), a call returns only by actually removing
the head of a non-empty idle list it observed, and as soon as some retry
observes a non-empty idle list the call returns a unit. -/
theorem wm_policy_workmem_get_never_null (sched : List (List WmId)) :
    (∀ idle, getIteration idle ≠ GetIterResult.nullReturn) ∧
    (∀ wm rest, wmGet sched = some (wm, rest) → wm :: rest ∈ sched) ∧
    ((∃ idle, idle ∈ sched ∧ idle ≠ []) →
      ∃ wm rest, wmGet sched = some (wm, rest)) :=
  ⟨fun idle => by cases idle <;> simp [getIteration],
   fun _ _ h => wmGet_mem h,
   fun h => wmGet_of_exists_nonempty h⟩

theorem wm_policy_workmem_get_never_null_witness :
    ∃ wm rest, wmGet [[], [5]] = some (wm, rest) :=
  (wm_policy_workmem_get_never_null [[], [5]]).2.2 ⟨[5], by simp, by simp⟩

/-- **C3.** `wm_policy_workmem_put` is a total function — it never blocks
and never fails: it always appends the returned unit at the tail of the
idle list, and, when the wait queue is non-empty, it wakes exactly its
first waiter while all others stay queued; when nobody waits it wakes
nobody. -/
theorem wm_policy_workmem_put_spec (idle : List WmId)
    (waiting : List CallerId) (wm : WmId) :
    (wm_policy_workmem_put idle waiting wm).idle = idle ++ [wm] ∧
    (waiting = [] → (wm_policy_workmem_put idle waiting wm).woken = none ∧
      (wm_policy_workmem_put idle waiting wm).waiting = []) ∧
    (∀ w ws, waiting = w :: ws →
      (wm_policy_workmem_put idle waiting wm).woken = some w ∧
      (wm_policy_workmem_put idle waiting wm).waiting = ws) := by
  cases waiting <;> simp [wm_policy_workmem_put]

theorem wm_policy_workmem_put_spec_witness :
    (wm_policy_workmem_put [1] [2, 3] 7).woken = some 2 ∧
    (wm_policy_workmem_put [1] [2, 3] 7).waiting = [3] :=
  (wm_policy_workmem_put_spec [1] [2, 3] 7).2.2 2 [3] rfl

lemma drainIdle_self (idle : List WmId) :
    drainIdle idle.length idle = idle := by
  induction idle with
  | nil => rfl
  | cons a as ih => simp [drainIdle, getFromIdle, ih]

lemma foldl_putToIdle (idle us : List WmId) :
    List.foldl putToIdle idle us = idle ++ us := by
  induction us generalizing idle with
  | nil => simp
  | cons u us ih => simp [List.foldl, putToIdle, ih]

/-- **C10.** The idle pool is FIFO: `wm_policy_workmem_get` removes the
head of the idle list, `wm_policy_workmem_put` appends at the tail, and
after any sequence of puts with no interleaved gets, draining the pool by
successive gets returns the units exactly in insertion order. -/
theorem idle_pool_fifo (idle us : List WmId) :
    (∀ wm rest, getFromIdle (wm :: rest) = some (wm, rest)) ∧
    (∀ l wm, putToIdle l wm = l ++ [wm]) ∧
    List.foldl putToIdle idle us = idle ++ us ∧
    drainIdle (idle ++ us).length (List.foldl putToIdle idle us) =
      idle ++ us := by
  refine ⟨fun _ _ => rfl, fun _ _ => rfl, foldl_putToIdle idle us, ?_⟩
  rw [foldl_putToIdle]
  exact drainIdle_self _

/-- Bookkeeping of kernel heap allocations: `nextId` is the next fresh
address, `live` the outstanding allocations as (address, size) pairs,
newest first. -/
structure AllocState where
  nextId : Nat
  live : List (Nat × Nat)
  deriving DecidableEq

/-- Well-formedness: every live address was handed out before `nextId`. -/
def AllocState.WF (st : AllocState) : Prop :=
  ∀ e ∈ st.live, e.1 < st.nextId

/-- One allocation request (`kmalloc`/`vmalloc`): the oracle `ok` decides
whether the request numbered `st.nextId` succeeds (memory pressure is an
external circumstance); on success the fresh address is recorded live
with its size, on failure the allocator returns NULL and records
nothing. -/
def allocMem (ok : Nat → Bool) (sz : Nat) (st : AllocState) :
    Option Nat × AllocState :=
  if ok st.nextId then
    (some st.nextId, ⟨st.nextId + 1, (st.nextId, sz) :: st.live⟩)
  else
    (none, ⟨st.nextId + 1, st.live⟩)

/-- `vfree`/`kfree`: releasing NULL is a no-op; otherwise the address is
removed from the live set. -/
def freeMem (p : Option Nat) (st : AllocState) : AllocState :=
  match p with
  | none => st
  | some a => ⟨st.nextId, st.live.filter (fun e => e.1 != a)⟩

/-- Models the kernel `PAGE_SIZE` constant. -/
def PAGE_SIZE : Nat := 4096

/-- Stands for `sizeof(struct zcomp_workmem)`, the size `kmalloc` is asked
for at line 62. -/
def sizeofWorkmem : Nat := 32

/-- The kernel `EINVAL` error number; `wm_policy_init` returns `-EINVAL`. -/
def EINVAL : Int := 22

/-- A `struct zcomp_workmem` as built by `workmem_alloc`: the address of
the struct itself (`kmalloc`), and the `mem`/`buf` pointers, `none`
standing for NULL when the corresponding `vmalloc` failed. -/
structure WorkmemObj where
  self : Nat
  mem : Option Nat
  buf : Option Nat
  deriving DecidableEq

/-- `workmem_free` (lines 51-56): `vfree(workmem->buf)`,
`vfree(workmem->mem)`, `kfree(workmem)`. -/
def workmem_free (w : WorkmemObj) (st : AllocState) : AllocState :=
  freeMem (some w.self) (freeMem w.mem (freeMem w.buf st))

/-- `workmem_alloc` (lines 60-79): `kmalloc` the struct (NULL ⇒ return
NULL), `vmalloc(sz)` the algorithm scratch region, `vmalloc(2 * PAGE_SIZE)`
the output buffer (one page for compressed data plus one spare page for
when the compressed size exceeds the original); if either region is NULL,
`workmem_free` the partially-built unit and return NULL. -/
def workmem_alloc (ok : Nat → Bool) (sz : Nat) (st : AllocState) :
    Option WorkmemObj × AllocState :=
  let k := allocMem ok sizeofWorkmem st
  match k.1 with
  | none => (none, k.2)
  | some self =>
    let m := allocMem ok sz k.2
    let b := allocMem ok (2 * PAGE_SIZE) m.2
    if m.1.isNone || b.1.isNone then
      (none, workmem_free ⟨self, m.1, b.1⟩ b.2)
    else
      (some ⟨self, m.1, b.1⟩, b.2)

/-- The idle list of a `struct zcomp_wm_policy` as built by
`wm_policy_init` (the spinlock and wait-queue head it also initialises are
modelled in `PoolState`). -/
structure WmPolicy where
  idle_workmem : List WorkmemObj
  deriving DecidableEq

/-- `wm_policy_init` (lines 121-137): initialise an empty idle list,
allocate exactly one workmem of scratch size `sz`, return `-EINVAL` if
that fails, otherwise `list_add_tail` the unit into the idle list and
return 0. -/
def wm_policy_init (ok : Nat → Bool) (sz : Nat) (st : AllocState) :
    (Int × WmPolicy) × AllocState :=
  let r := workmem_alloc ok sz st
  match r.1 with
  | none => ((-EINVAL, ⟨[]⟩), r.2)
  | some wm => ((0, ⟨[wm]⟩), r.2)

/-- `wm_policy_free` (lines 139-148): pop every unit off the idle list and
`workmem_free` it. -/
def wm_policy_free (policy : WmPolicy) (st : AllocState) : AllocState :=
  policy.idle_workmem.foldl (fun s wm => workmem_free wm s) st

lemma filter_ne_of_lt {L : List (Nat × Nat)} {n a : Nat}
    (h : ∀ e ∈ L, e.1 < n) (ha : n ≤ a) :
    L.filter (fun e => e.1 != a) = L := by
  refine List.filter_eq_self.mpr ?_
  intro e he
  have := h e he
  simp only [bne_iff_ne, ne_eq]
  omega

/-- **C5.** If `workmem_alloc` fails to allocate the scratch or output
region (or the struct itself), the failure path releases both regions and
the struct before NULL propagates: the live-allocation set after a failing
`workmem_alloc` is exactly the one before the call. -/
theorem workmem_alloc_no_leak (ok : Nat → Bool) (sz : Nat) (st : AllocState)
    (hwf : st.WF) (hfail : (workmem_alloc ok sz st).1 = none) :
    (workmem_alloc ok sz st).2.live = st.live := by
  obtain ⟨n, L⟩ := st
  have hwf' : ∀ e ∈ L, e.1 < n := hwf
  have hL1 : L.filter (fun e => e.1 != n + 1) = L :=
    filter_ne_of_lt hwf' (Nat.le_succ n)
  have hL2 : L.filter (fun e => e.1 != n + 2) = L :=
    filter_ne_of_lt hwf' (Nat.le_add_right n 2)
  have hL0 : L.filter (fun e => e.1 != n) = L :=
    filter_ne_of_lt hwf' (Nat.le_refl n)
  have ha1 : ((n : Nat) != n + 1) = true := by
    simp only [bne_iff_ne, ne_eq]
    omega
  have ha2 : ((n : Nat) != n + 2) = true := by
    simp only [bne_iff_ne, ne_eq]
    omega
  by_cases h0 : ok n
  · by_cases h1 : ok (n + 1) <;> by_cases h2 : ok (n + 2)
    · have e0 : (workmem_alloc ok sz ⟨n, L⟩).1 =
          some ⟨n, some (n + 1), some (n + 2)⟩ := by
        simp [workmem_alloc, allocMem, h0, h1, h2]
      rw [e0] at hfail
      exact Option.noConfusion hfail
    · have e1 : (workmem_alloc ok sz ⟨n, L⟩).2.live =
          (((n + 1, sz) :: (n, sizeofWorkmem) :: L).filter
            (fun e => e.1 != n + 1)).filter (fun e => e.1 != n) := by
        simp [workmem_alloc, allocMem, workmem_free, freeMem, h0, h1, h2]
      rw [e1]
      simp [List.filter_cons, ha1, hL1, hL0]
    · have e1 : (workmem_alloc ok sz ⟨n, L⟩).2.live =
          (((n + 2, 2 * PAGE_SIZE) :: (n, sizeofWorkmem) :: L).filter
            (fun e => e.1 != n + 2)).filter (fun e => e.1 != n) := by
        simp [workmem_alloc, allocMem, workmem_free, freeMem, h0, h1, h2]
      rw [e1]
      simp [List.filter_cons, ha2, hL2, hL0]
    · have e1 : (workmem_alloc ok sz ⟨n, L⟩).2.live =
          ((n, sizeofWorkmem) :: L).filter (fun e => e.1 != n) := by
        simp [workmem_alloc, allocMem, workmem_free, freeMem, h0, h1, h2]
      rw [e1]
      simp [List.filter_cons, hL0]
  · have e1 : (workmem_alloc ok sz ⟨n, L⟩).2.live = L := by
      simp [workmem_alloc, allocMem, h0]
    rw [e1]

theorem workmem_alloc_no_leak_witness :
    AllocState.WF ⟨0, []⟩ ∧
    (workmem_alloc (fun n => n != 1) 10 ⟨0, []⟩).1 = none ∧
    (workmem_alloc (fun n => n != 1) 10 ⟨0, []⟩).2.live =
      (⟨0, []⟩ : AllocState).live :=
  ⟨fun e he => absurd he (List.not_mem_nil e),
   by decide,
   workmem_alloc_no_leak (fun n => n != 1) 10 ⟨0, []⟩
     (fun e he => absurd he (List.not_mem_nil e)) (by decide)⟩

lemma workmem_alloc_success (ok : Nat → Bool) (sz : Nat) (st : AllocState)
    {w : WorkmemObj} (h : (workmem_alloc ok sz st).1 = some w) :
    ∃ m b, w.mem = some m ∧ w.buf = some b ∧
      (m, sz) ∈ (workmem_alloc ok sz st).2.live ∧
      (b, 2 * PAGE_SIZE) ∈ (workmem_alloc ok sz st).2.live := by
  obtain ⟨n, L⟩ := st
  by_cases h0 : ok n
  · by_cases h1 : ok (n + 1) <;> by_cases h2 : ok (n + 2)
    · have e0 : workmem_alloc ok sz ⟨n, L⟩ =
          (some ⟨n, some (n + 1), some (n + 1 + 1)⟩,
           ⟨n + 1 + 1 + 1, (n + 1 + 1, 2 * PAGE_SIZE) :: (n + 1, sz) ::
             (n, sizeofWorkmem) :: L⟩) := by
        have h2' : ok (n + 1 + 1) = true := by
          have : n + 1 + 1 = n + 2 := by omega
          rw [this]
          exact h2
        simp [workmem_alloc, allocMem, h0, h1, h2']
      rw [e0] at h
      obtain rfl := Option.some.inj h
      exact ⟨n + 1, n + 1 + 1, rfl, rfl, by rw [e0]; simp, by rw [e0]; simp⟩
    all_goals
      exfalso
      have h2' : ok (n + 1 + 1) = (ok (n + 2) : Bool) := by
        have : n + 1 + 1 = n + 2 := by omega
        rw [this]
      simp [workmem_alloc, allocMem, h0, h1, h2', h2] at h
  · simp [workmem_alloc, allocMem, h0] at h

/-- **C4.** `wm_policy_init` allocates exactly one Workmem unit whose
scratch region has the requested size `sz` and whose output region is
fixed at `2 * PAGE_SIZE`; it returns `-EINVAL` when the unit cannot be
allocated (in particular whenever a region allocation fails) and succeeds
exactly when the allocation went through — success never leaves the pool
with zero units. -/
theorem wm_policy_init_spec (ok : Nat → Bool) (sz : Nat) (st : AllocState) :
    ((wm_policy_init ok sz st).1.1 = 0 →
      ∃ wm, (wm_policy_init ok sz st).1.2.idle_workmem = [wm] ∧
        ∃ m b, wm.mem = some m ∧ wm.buf = some b ∧
          (m, sz) ∈ (wm_policy_init ok sz st).2.live ∧
          (b, 2 * PAGE_SIZE) ∈ (wm_policy_init ok sz st).2.live) ∧
    ((workmem_alloc ok sz st).1 = none →
      (wm_policy_init ok sz st).1.1 = -EINVAL ∧
      (wm_policy_init ok sz st).1.2.idle_workmem = []) ∧
    ((wm_policy_init ok sz st).1.1 = 0 ↔
      ((workmem_alloc ok sz st).1.isSome : Bool) = true) := by
  rcases e : (workmem_alloc ok sz st).1 with _ | w
  · refine ⟨?_, ?_, ?_⟩
    · intro h0
      exfalso
      have hret : (wm_policy_init ok sz st).1.1 = -EINVAL := by
        simp [wm_policy_init, e]
      rw [hret] at h0
      norm_num [EINVAL] at h0
    · intro _
      exact ⟨by simp [wm_policy_init, e], by simp [wm_policy_init, e]⟩
    · have hret : (wm_policy_init ok sz st).1.1 = -EINVAL := by
        simp [wm_policy_init, e]
      rw [hret]
      norm_num [EINVAL]
  · have hret : (wm_policy_init ok sz st).1.1 = 0 := by
      simp [wm_policy_init, e]
    have hpol : (wm_policy_init ok sz st).1.2.idle_workmem = [w] := by
      simp [wm_policy_init, e]
    have hst : (wm_policy_init ok sz st).2 = (workmem_alloc ok sz st).2 := by
      simp [wm_policy_init, e]
    refine ⟨?_, ?_, ?_⟩
    · intro _
      refine ⟨w, hpol, ?_⟩
      rw [hst]
      exact workmem_alloc_success ok sz st e
    · intro hnone
      exact Option.noConfusion hnone
    · rw [hret]
      simp

theorem wm_policy_init_spec_witness :
    (wm_policy_init (fun _ => true) 10 ⟨0, []⟩).1.1 = 0 ∧
    ∃ wm, (wm_policy_init (fun _ => true) 10 ⟨0, []⟩).1.2.idle_workmem = [wm] ∧
      ∃ m b, wm.mem = some m ∧ wm.buf = some b ∧
        (m, 10) ∈ (wm_policy_init (fun _ => true) 10 ⟨0, []⟩).2.live ∧
        (b, 2 * PAGE_SIZE) ∈ (wm_policy_init (fun _ => true) 10 ⟨0, []⟩).2.live :=
  ⟨by decide, (wm_policy_init_spec (fun _ => true) 10 ⟨0, []⟩).1 (by decide)⟩

/-- The names of the static `compressors[]` table (lines 33-49) with both
`CONFIG_ZRAM_LZO_COMPRESS` and `CONFIG_ZRAM_LZ4_COMPRESS` configured, in
table order, sentinel excluded.  Each entry's `create`/`destroy` function
pointers are resolved through the `algCreate`/`algDestroy` parameters of
`zcomp_create`, keyed by this name. -/
def compressorNames : List String := ["lzo", "lz4"]

/-- Whitespace for the trim of a sysfs-style comparison. -/
def isSpaceChar (c : Char) : Bool :=
  c == ' ' || c == '\t' || c == '\n' || c == '\r'

/-- Drop leading and trailing whitespace. -/
def trimChars (l : List Char) : List Char :=
  ((l.dropWhile isSpaceChar).reverse.dropWhile isSpaceChar).reverse

/-- The character's code point, upper-case letters folded to lower case. -/
def toLowerVal (c : Char) : Nat :=
  if 65 ≤ c.toNat ∧ c.toNat ≤ 90 then c.toNat + 32 else c.toNat

/-- Modelled from the spec: `sysfs_streq` is kernel library code not part
of this tree.  The spec describes the registry lookup as a
"case-insensitive trim-compare" against sysfs-style attribute strings, so
two names match when they agree after trimming surrounding whitespace
(such as the newline a sysfs write appends) and ignoring case. -/
def sysfs_streq (s1 s2 : String) : Bool :=
  (trimChars s1.data).map toLowerVal == (trimChars s2.data).map toLowerVal

/-- The lookup loop of `zcomp_create` (lines 166-174): scan the registry
in order, stopping at the first `sysfs_streq` match; reaching the
sentinel (`none`) means the requested algorithm is unsupported. -/
def findCompressor (compress : String) : Option String :=
  compressorNames.find? (fun entry => sysfs_streq compress entry)

/-- Stands for `sizeof(struct zram_comp)`, the size `kzalloc` is asked for
at line 176. -/
def sizeofZramComp : Nat := 72

/-- A `struct zram_comp` handle as filled in by `zcomp_create`: its
`kzalloc`-ed address and the registry name copied into it (the
compress/decompress/create/destroy pointers are the registry entry's,
keyed by this name). -/
structure ZramComp where
  self : Nat
  name : String
  deriving DecidableEq

/-- `zcomp_destroy` (lines 151-155): `comp->destroy(comp)` — the
backend-specific destructor, the `algDestroy` parameter — then
`kfree(comp)`. -/
def zcomp_destroy (algDestroy : String → AllocState → AllocState)
    (comp : ZramComp) (st : AllocState) : AllocState :=
  freeMem (some comp.self) (algDestroy comp.name st)

/-- `zcomp_create` (lines 161-189): look the requested algorithm up in the
registry via `sysfs_streq` (return NULL when only the sentinel is
reached), `kzalloc` the handle (NULL on failure), copy the entry's name
and function pointers in, and run the backend constructor; on a non-zero
constructor return, tear the partial handle down with `zcomp_destroy` and
return NULL.  The backend constructors/destructors (`zcomp_lzo_create`,
`zcomp_lz4_create`, ...) live outside this file and are passed as the
`algCreate`/`algDestroy` parameters; `algCreate` yields the C return value
together with its effect on the allocation state. -/
def zcomp_create (ok : Nat → Bool)
    (algCreate : String → AllocState → Int × AllocState)
    (algDestroy : String → AllocState → AllocState)
    (compress : String) (st : AllocState) : Option ZramComp × AllocState :=
  match findCompressor compress with
  | none => (none, st)
  | some entry =>
    let k := allocMem ok sizeofZramComp st
    match k.1 with
    | none => (none, k.2)
    | some self =>
      let comp : ZramComp := ⟨self, entry⟩
      let r := algCreate entry k.2
      if r.1 != 0 then
        (none, zcomp_destroy algDestroy comp r.2)
      else
        (some comp, r.2)

/-- `zcomp_available_show` (lines 192-204): append every non-sentinel
registry name followed by a space — wrapped in angle brackets when a
backend `comp` is set whose name `strcmp`-equals the entry — and
terminate with a newline.  `!strcmp(a, b)` is string equality. -/
def zcomp_available_show (comp : Option ZramComp) : String :=
  (compressorNames.foldl (fun acc entry =>
    match comp with
    | some c =>
      if c.name == entry then acc ++ "<" ++ entry ++ "> "
      else acc ++ entry ++ " "
    | none => acc ++ entry ++ " ") "") ++ "\n"

/-- **C7.** The registry lookup of `zcomp_create` scans the fixed
compiled-in table with the case-insensitive trim-compare `sysfs_streq`
(sysfs-style attribute comparison): a returned entry is a table member the
requested name matches, and a name matching no entry is rejected right at
creation time — `zcomp_create` returns NULL with the allocation state
untouched, before any state is created. -/
theorem zcomp_lookup_spec (ok : Nat → Bool)
    (algCreate : String → AllocState → Int × AllocState)
    (algDestroy : String → AllocState → AllocState)
    (compress : String) (st : AllocState) :
    (∀ entry, findCompressor compress = some entry →
      entry ∈ compressorNames ∧ sysfs_streq compress entry = true) ∧
    (∀ entry, entry ∈ compressorNames → sysfs_streq compress entry = true →
      findCompressor compress ≠ none) ∧
    ((∀ entry, entry ∈ compressorNames →
        sysfs_streq compress entry = false) →
      zcomp_create ok algCreate algDestroy compress st = (none, st)) := by
  refine ⟨?_, ?_, ?_⟩
  · intro entry hfind
    exact ⟨List.mem_of_find?_eq_some hfind, List.find?_some hfind⟩
  · intro entry hmem hmatch hnone
    rw [findCompressor, List.find?_eq_none] at hnone
    exact hnone entry hmem hmatch
  · intro hall
    have hnone : findCompressor compress = none := by
      rw [findCompressor, List.find?_eq_none]
      intro entry hmem
      rw [hall entry hmem]
      exact Bool.false_ne_true
    simp [zcomp_create, hnone]

theorem zcomp_lookup_spec_witness :
    zcomp_create (fun _ => true) (fun _ s => (0, s)) (fun _ s => s)
      "zzz" ⟨0, []⟩ = (none, ⟨0, []⟩) :=
  (zcomp_lookup_spec (fun _ => true) (fun _ s => (0, s)) (fun _ s => s)
    "zzz" ⟨0, []⟩).2.2 (by decide)

/-- **C8.** `zcomp_available_show` produces the newline-terminated,
space-separated listing of every registry backend name, wrapping exactly
the name equal to the active backend's name in angle brackets and leaving
every other name — and, with no active backend, every name — unbracketed. -/
theorem zcomp_available_show_spec (comp : Option ZramComp) :
    zcomp_available_show comp =
      match comp with
      | none => "lzo lz4 \n"
      | some c =>
        if c.name = "lzo" then "<lzo> lz4 \n"
        else if c.name = "lz4" then "lzo <lz4> \n"
        else "lzo lz4 \n" := by
  match comp with
  | none => rfl
  | some c =>
    obtain ⟨self, cname⟩ := c
    by_cases h1 : cname = "lzo"
    · subst h1
      rfl
    · by_cases h2 : cname = "lz4"
      · subst h2
        rfl
      · have b1 : (cname == "lzo") = false := beq_eq_false_iff_ne.mpr h1
        have b2 : (cname == "lz4") = false := beq_eq_false_iff_ne.mpr h2
        simp [zcomp_available_show, compressorNames, b1, b2, h1, h2]

/-- **C6.** `zcomp_create` failure is clean: for a name not in the
registry it returns NULL immediately with the allocation state untouched;
when the matched algorithm's constructor fails, the partially built handle
is torn down — the destructor is invoked and the handle freed, so that
(given the collaborator contract that the backend destructor releases what
its failed constructor had built) no allocation survives — and NULL is
returned.  No partial handle ever escapes: a `some` result means the
constructor returned 0. -/
theorem zcomp_create_failure_clean (ok : Nat → Bool)
    (algCreate : String → AllocState → Int × AllocState)
    (algDestroy : String → AllocState → AllocState)
    (compress : String) (st : AllocState) (hwf : st.WF)
    (hundo : ∀ entry s, (algCreate entry s).1 ≠ 0 →
      (algDestroy entry (algCreate entry s).2).live = s.live) :
    (findCompressor compress = none →
      zcomp_create ok algCreate algDestroy compress st = (none, st)) ∧
    (∀ entry, findCompressor compress = some entry → ok st.nextId = true →
      (algCreate entry
        ⟨st.nextId + 1, (st.nextId, sizeofZramComp) :: st.live⟩).1 ≠ 0 →
      (zcomp_create ok algCreate algDestroy compress st).1 = none ∧
      (zcomp_create ok algCreate algDestroy compress st).2.live = st.live) ∧
    (∀ comp st',
      zcomp_create ok algCreate algDestroy compress st = (some comp, st') →
      findCompressor compress = some comp.name ∧
      (algCreate comp.name
        ⟨st.nextId + 1, (st.nextId, sizeofZramComp) :: st.live⟩).1 = 0) := by
  obtain ⟨n, L⟩ := st
  have hwf' : ∀ e ∈ L, e.1 < n := hwf
  refine ⟨?_, ?_, ?_⟩
  · intro hnone
    simp [zcomp_create, hnone]
  · intro entry hfind hok hfail
    have hb : ((algCreate entry
        ⟨n + 1, (n, sizeofZramComp) :: L⟩).1 != 0) = true :=
      bne_iff_ne.mpr hfail
    have e1 : zcomp_create ok algCreate algDestroy compress ⟨n, L⟩ =
        (none, zcomp_destroy algDestroy ⟨n, entry⟩
          (algCreate entry ⟨n + 1, (n, sizeofZramComp) :: L⟩).2) := by
      simp [zcomp_create, hfind, allocMem, hok, hb]
    refine ⟨by rw [e1], ?_⟩
    rw [e1]
    show (freeMem (some n) (algDestroy entry
      (algCreate entry ⟨n + 1, (n, sizeofZramComp) :: L⟩).2)).live = L
    simp only [freeMem]
    rw [hundo entry ⟨n + 1, (n, sizeofZramComp) :: L⟩ hfail]
    show ((n, sizeofZramComp) :: L).filter (fun e => e.1 != n) = L
    have hz : (((n, sizeofZramComp) : Nat × Nat).1 != n) = false := by simp
    rw [List.filter_cons, hz]
    simp only [Bool.false_eq_true, if_false]
    exact filter_ne_of_lt hwf' (Nat.le_refl n)
  · intro comp st' heq
    rcases hf : findCompressor compress with _ | entry
    · simp [zcomp_create, hf] at heq
    · by_cases hok : ok n
      · by_cases hfail :
            (algCreate entry ⟨n + 1, (n, sizeofZramComp) :: L⟩).1 = 0
        · have e2 : zcomp_create ok algCreate algDestroy compress ⟨n, L⟩ =
              (some ⟨n, entry⟩,
               (algCreate entry ⟨n + 1, (n, sizeofZramComp) :: L⟩).2) := by
            simp [zcomp_create, hf, allocMem, hok, hfail]
          rw [e2] at heq
          have h1 : some (⟨n, entry⟩ : ZramComp) = some comp :=
            congrArg Prod.fst heq
          obtain rfl := Option.some.inj h1
          exact ⟨rfl, hfail⟩
        · have hb : ((algCreate entry
              ⟨n + 1, (n, sizeofZramComp) :: L⟩).1 != 0) = true :=
            bne_iff_ne.mpr hfail
          simp [zcomp_create, hf, allocMem, hok, hb] at heq
      · simp [zcomp_create, hf, allocMem, hok] at heq

theorem zcomp_create_failure_clean_witness :
    (zcomp_create (fun _ => true) (fun _ s => (-22, s)) (fun _ s => s)
      "lzo" ⟨0, []⟩).1 = none ∧
    (zcomp_create (fun _ => true) (fun _ s => (-22, s)) (fun _ s => s)
      "lzo" ⟨0, []⟩).2.live = (⟨0, []⟩ : AllocState).live :=
  (zcomp_create_failure_clean (fun _ => true) (fun _ s => (-22, s))
    (fun _ s => s) "lzo" ⟨0, []⟩
    (fun e he => absurd he (List.not_mem_nil e)) (fun _ _ _ => rfl)).2.1
    "lzo" (by decide) rfl (by decide)
